import Mathlib

/-!
Verification of the commit-ingestion and time-estimation pipeline of
`timekeep.py` (kkeeling/timekeeper).

The embedding translates the Python source into Lean:
* strings are modeled as `List Char`; the Python string operations used by
  the source (`str.split` with separator `"|||"` and `'\t'`, `str.startswith`,
  slicing `line[18:]`, `'\t' in line`, `int(...)`) are given executable
  models below;
* Python `float` arithmetic is modeled over `ℚ`, with Python 3's `round`
  (round-half-to-even) modeled exactly;
* the mutable single-pass loop of `get_commits_for_day` is modeled as a fold
  over lines with an explicit state.  One Python subtlety is preserved: the
  loop appends the *dict object* `current_commit` to the result list and may
  keep mutating it afterwards (when a malformed boundary line leaves
  `current_commit` unchanged after the append).  The state therefore keeps
  the current record outside the finished list together with an `emitted`
  flag, and the finished list receives the record's final value when it is
  detached (next well-formed boundary) or at end of stream;
* `int(...)` raising `ValueError` on the timestamp field is modeled by the
  step function returning `none` (the Python exception propagates out of
  `get_commits_for_day`).
-/

namespace Timekeep

/-! ### Models of the Python string primitives used by the source -/

/-- ASCII decimal digit test, as used by Python `int` parsing. -/
def isDigitChar (c : Char) : Bool := '0' ≤ c && c ≤ '9'

/-- Numeric value of a decimal digit character. -/
def digVal (c : Char) : Nat := c.toNat - '0'.toNat

/-- Digit-run parser for Python `int`: digits with single underscores
allowed between digits (`"1_000"` parses, `"1__0"`, `"1_"` do not). -/
def udGo : List Char → Nat → Option Nat
  | [], acc => some acc
  | c :: rest, acc =>
    if c = '_' then
      match rest with
      | d :: rest2 => if isDigitChar d then udGo rest2 (acc * 10 + digVal d) else none
      | [] => none
    else if isDigitChar c then udGo rest (acc * 10 + digVal c) else none

/-- Non-empty digit run (first char must be a digit). -/
def parseUDigits : List Char → Option Nat
  | [] => none
  | c :: rest => if isDigitChar c then udGo rest (digVal c) else none

/-- ASCII whitespace accepted (and stripped) by Python `int(str)`. -/
def isPyWs (c : Char) : Bool :=
  c = ' ' || c = '\t' || c = '\n' || c = '\r' || c = '\x0b' || c = '\x0c'

/-- Strip leading and trailing whitespace, as Python `int` does. -/
def pyStrip (s : List Char) : List Char :=
  ((s.dropWhile isPyWs).reverse.dropWhile isPyWs).reverse

/-- Model of Python `int(str)` on ASCII input: optional surrounding
whitespace, optional single sign, then a non-empty digit run (with
underscore grouping).  Returns `none` where Python raises `ValueError`. -/
def pyInt (s : List Char) : Option Int :=
  match pyStrip s with
  | '-' :: rest => (parseUDigits rest).map (fun n => -(n : Int))
  | '+' :: rest => (parseUDigits rest).map (fun n => (n : Int))
  | t => (parseUDigits t).map (fun n => (n : Int))

/-- Model of the source's numstat field handling
(`int(parts[i]) if parts[i] != '-' else 0`): the literal `"-"` binary
marker counts as 0, anything else goes through `int`. -/
def numVal (s : List Char) : Option Int :=
  if s = ['-'] then some 0 else pyInt s

/-- Value of a numstat field with parse failure defaulting to 0 (used only
to *state* sums; the parser itself uses `numVal` and the all-or-nothing
update of the source). -/
def numValD (s : List Char) : Int := (numVal s).getD 0

/-- Model of Python `line.split('\t')` (accumulator-style scanner). -/
def splitTab : List Char → List Char → List (List Char)
  | [], acc => [acc.reverse]
  | c :: rest, acc =>
    if c = '\t' then acc.reverse :: splitTab rest [] else splitTab rest (c :: acc)

/-- Model of Python `s.split('|||')`: leftmost, non-overlapping matches of
the three-character separator. -/
def splitPipes : List Char → List Char → List (List Char)
  | [], acc => [acc.reverse]
  | '|' :: '|' :: '|' :: r, acc => acc.reverse :: splitPipes r []
  | c :: rest, acc => splitPipes rest (c :: acc)

/-- The commit-boundary marker `'COMMIT_BOUNDARY|||'` (18 characters; the
source slices `line[18:]`). -/
def bMarker : List Char :=
  ['C', 'O', 'M', 'M', 'I', 'T', '_', 'B', 'O', 'U', 'N', 'D', 'A', 'R', 'Y', '|', '|', '|']

/-! ### The commit record and the parsing state machine
(`get_commits_for_day`, src/timekeep.py lines 278–320) -/

/-- One parsed commit record (the dict built at lines 292–301). -/
structure CommitRec where
  hash : List Char
  author : List Char
  email : List Char
  timestamp : Int
  message : List Char
  files : Nat
  additions : Int
  deletions : Int
deriving DecidableEq, Repr

/-- Parsing state: `finished` holds records already appended *and* detached
from `cur`; `cur` is Python's `current_commit`; `emitted` records whether
`cur` has already been appended to the result list (mutations still reach
the list entry until a new well-formed boundary replaces `cur`); `seen` is
`seen_hashes`. -/
structure PState where
  finished : List CommitRec
  seen : List (List Char)
  cur : Option CommitRec
  emitted : Bool
deriving DecidableEq, Repr

/-- Initial state (lines 278–280). -/
def initState : PState := ⟨[], [], none, false⟩

/-- The "save previous commit" block at lines 284–287: if there is a
current record whose hash is unseen, record the hash and mark the record
emitted (the append itself is materialized on detach, see `PState`). -/
def emitPhase (s : PState) : PState :=
  match s.cur with
  | none => s
  | some c =>
    if s.seen.contains c.hash then s
    else { s with seen := c.hash :: s.seen, emitted := true }

/-- One iteration of the `for line in output.splitlines()` loop
(lines 282–314).  Returns `none` where Python raises (`int(parts[3])` on a
non-numeric timestamp field). -/
def step (s : PState) (line : List Char) : Option PState :=
  if bMarker.isPrefixOf line then
    let s1 := emitPhase s
    let parts := splitPipes (line.drop 18) []
    if parts.length = 5 then
      match pyInt (parts.getD 3 []) with
      | none => none
      | some ts =>
        some { finished := s1.finished ++
                 (match s1.cur with
                  | some c => if s1.emitted then [c] else []
                  | none => []),
               seen := s1.seen,
               cur := some { hash := parts.getD 0 [], author := parts.getD 1 [],
                             email := parts.getD 2 [], timestamp := ts,
                             message := parts.getD 4 [],
                             files := 0, additions := 0, deletions := 0 },
               emitted := false }
    else
      some s1
  else
    match s.cur with
    | none => some s
    | some c =>
      if line.contains '\t' then
        let parts := splitTab line []
        if 3 ≤ parts.length then
          match numVal (parts.getD 0 []), numVal (parts.getD 1 []) with
          | some a, some d =>
            some { s with cur := some { c with files := c.files + 1,
                                               additions := c.additions + a,
                                               deletions := c.deletions + d } }
          | _, _ =>
            some { s with cur := some { c with files := c.files + 1 } }
        else some s
      else some s

/-- Run the loop over all lines. -/
def runSteps (s : PState) : List (List Char) → Option PState
  | [] => some s
  | l :: rest =>
    match step s l with
    | none => none
    | some s1 => runSteps s1 rest

/-- The Python result list as it stands mid-parse: records appended so far
(`finished` plus the current record if it has been appended). -/
def pyList (s : PState) : List CommitRec :=
  s.finished ++ (match s.cur with
                 | some c => if s.emitted then [c] else []
                 | none => [])

/-- End-of-loop handling (lines 316–318): the last accumulated record is
appended if its hash is unseen. -/
def finalize (s : PState) : List CommitRec :=
  match s.cur with
  | none => s.finished
  | some c =>
    if s.emitted then s.finished ++ [c]
    else if s.seen.contains c.hash then s.finished
    else s.finished ++ [c]

/-- The parsing portion of `get_commits_for_day`: from the lines of the git
log output to the returned commit list (`none` = Python exception). -/
def parseLog (lines : List (List Char)) : Option (List CommitRec) :=
  (runSteps initState lines).map finalize

/-! ### Numeric layer: Python floats modeled over `ℚ`
(constants at lines 34–37, `round_to_half_hour` at lines 324–326) -/

/-- `FALLBACK_BASE_HOURS = 0.5` (line 35). -/
def FALLBACK_BASE_HOURS : ℚ := 1 / 2

/-- `FALLBACK_LINES_PER_HOUR = 100` (line 36). -/
def FALLBACK_LINES_PER_HOUR : ℚ := 100

/-- `FALLBACK_MAX_HOURS = 40.0` (line 37; defined but never used by the
source). -/
def FALLBACK_MAX_HOURS : ℚ := 40

/-- Python 3's built-in `round` to an integer: round half to even. -/
def pyRound (x : ℚ) : ℤ :=
  if x - ⌊x⌋ < 1 / 2 then ⌊x⌋
  else if 1 / 2 < x - ⌊x⌋ then ⌊x⌋ + 1
  else if Even ⌊x⌋ then ⌊x⌋ else ⌊x⌋ + 1

/-- `round_to_half_hour` (lines 324–326): `round(hours * 2) / 2`. -/
def round_to_half_hour (hours : ℚ) : ℚ := (pyRound (hours * 2) : ℚ) / 2

/-! ### `analyze_commits_batch` (lines 329–434)

The network call to the estimation capability is the external collaborator;
it is modeled as an input: either a validated `CommitAnalysis` (the success
of lines 365–378) or a raised/failed outcome tagged with which `except`
branch of lines 387–434 catches it, together with the exception's string
form `str(e)`. -/

/-- The Pydantic model `CommitAnalysis` (lines 45–48), post-validation. -/
structure CommitAnalysis where
  total_hours : ℚ
  summary : String
  major_tasks : List (String × ℚ)

/-- Which `except` branch of `analyze_commits_batch` catches the failure. -/
inductive FailKind
  | jsonDecode
  | validation
  | googleAPI
  | other
deriving DecidableEq, Repr

/-- A failed capability invocation: the catching branch plus the
exception's string form (`str(e)` / the `{e}` interpolation). -/
structure PyFailure where
  kind : FailKind
  msg : String

/-- The dict returned by `analyze_commits_batch`. -/
structure BatchResult where
  total_hours : ℚ
  summary : String
  major_tasks : List (String × ℚ)
  error : Option String

/-- Total changed-line count used by the fallback branches
(`sum(c['additions'] + c['deletions'] for c in commits)`). -/
def totalLines (commits : List CommitRec) : ℤ :=
  (commits.map (fun c => c.additions + c.deletions)).sum

/-- The fallback hours expression, identical in all four `except` branches
(lines 391, 403, 415, 427):
`min(round_to_half_hour((FALLBACK_BASE_HOURS + total_lines / FALLBACK_LINES_PER_HOUR) / 4), 10)`. -/
def fallbackHours (total_lines : ℤ) : ℚ :=
  min (round_to_half_hour ((FALLBACK_BASE_HOURS + (total_lines : ℚ) / FALLBACK_LINES_PER_HOUR) / 4)) 10

/-- The `error` string of each `except` branch: the first two branches
prefix a literal, the `GoogleAPIError` and generic branches use `str(e)`
verbatim. -/
def errString (f : PyFailure) : String :=
  match f.kind with
  | .jsonDecode => "JSON parsing error: " ++ f.msg
  | .validation => "Response validation error: " ++ f.msg
  | .googleAPI => f.msg
  | .other => f.msg

/-- The `summary` string of each `except` branch. -/
def failSummary (f : PyFailure) (nCommits : Nat) (total_lines : ℤ) : String :=
  let tag := match f.kind with
    | .jsonDecode => "JSONDecodeError"
    | .validation => "ValidationError"
    | .googleAPI => "GoogleAPIError"
    | .other => "Unexpected Error"
  "AI analysis failed (" ++ tag ++ "). Fallback: " ++ toString nCommits ++
    " commits, " ++ toString total_lines ++ " lines changed."

/-- `analyze_commits_batch` (lines 329–434) as a function of the commit
batch and the capability outcome.  The empty batch short-circuits
(lines 331–336); a success is normalized by dividing by 4, rounding to the
half hour, and capping the total at 10 (lines 380–383); any failure yields
the fallback estimate and a diagnostic `error` (lines 387–434). -/
def analyze_commits_batch (commits : List CommitRec)
    (resp : Except PyFailure CommitAnalysis) : BatchResult :=
  if commits = [] then
    { total_hours := 0, summary := "No commits to analyze", major_tasks := [], error := none }
  else
    match resp with
    | .ok a =>
      { total_hours := min (round_to_half_hour (a.total_hours / 4)) 10,
        summary := a.summary,
        major_tasks := a.major_tasks.map (fun t => (t.1, round_to_half_hour (t.2 / 4))),
        error := none }
    | .error f =>
      { total_hours := fallbackHours (totalLines commits),
        summary := failSummary f commits.length (totalLines commits),
        major_tasks := [],
        error := some (errString f) }

/-- Modelled from the spec (§4.3): the `FallbackEstimator` component is not
a separate function in the source (the formula is inlined in the `except`
branches); this definition follows the spec's words
`hours = clamp(base_hours + total_changed_lines / lines_per_hour, max_hours)`
with `base_hours` applying only when `commit_count > 0`, for refinement
comparison against `fallbackHours`. -/
def specFallbackEstimate (total_lines : ℤ) (commit_count : Nat) : ℚ :=
  min ((if 0 < commit_count then FALLBACK_BASE_HOURS else 0) +
        (total_lines : ℚ) / FALLBACK_LINES_PER_HOUR) FALLBACK_MAX_HOURS

/-! ### `analyze_project` (lines 437–492) and the day runner (lines 652–675)

Filesystem checks, the interactive author-email configuration, the git
invocation and the capability call are external collaborators; they enter
as parameters.  The per-project result dict has different keys on different
paths, modeled with `Option` fields for keys that may be absent. -/

/-- A per-project result dict. -/
structure ProjResult where
  name : String
  path : Option String
  commits : Option Nat
  total_hours : ℚ
  summary : Option String
  major_tasks : Option (List (String × ℚ))
  error : Option String
deriving DecidableEq, Repr

/-- Python truthiness of the optional strings involved (`if not author_email`,
`if not result.get('error')`): `None` and `''` are falsy. -/
def pyTruthy (s : Option String) : Bool :=
  match s with
  | none => false
  | some t => !(t.isEmpty)

/-- `analyze_project` (lines 437–492). `pathExists` models
`Path(project_path).exists()`, `hasGitDir` models
`Path(project_path, '.git').exists()`, `author_email` the outcome of
`confirm_and_save_author`, `commits` the parsed commit list, and `analysis`
the orchestrator's result for that batch. -/
def analyze_project (name path : String) (pathExists hasGitDir : Bool)
    (author_email : Option String) (commits : List CommitRec)
    (analysis : BatchResult) : ProjResult :=
  if pathExists = false then
    { name := name, path := none, commits := none, total_hours := 0,
      summary := none, major_tasks := none,
      error := some ("Path does not exist: " ++ path) }
  else if hasGitDir = false then
    { name := name, path := none, commits := none, total_hours := 0,
      summary := none, major_tasks := none,
      error := some ("Not a git repository: " ++ path) }
  else if pyTruthy author_email = false then
    { name := name, path := none, commits := none, total_hours := 0,
      summary := none, major_tasks := none,
      error := some "No author email configured" }
  else if commits = [] then
    { name := name, path := none, commits := some 0, total_hours := 0,
      summary := some ("No commits by " ++ author_email.getD "" ++ " on this day"),
      major_tasks := some [], error := none }
  else
    { name := name, path := some path, commits := some commits.length,
      total_hours := analysis.total_hours,
      summary := some analysis.summary,
      major_tasks := some analysis.major_tasks,
      error := analysis.error }

/-- The aggregation loop of `main` (lines 662–672): results are printed in
`asyncio.gather` order (which preserves input order) and `total_hours` is
added for every result with a falsy `error`.  The first component is the
listing in print order, the second the grand total. -/
def dayRunner (results : List ProjResult) : List ProjResult × ℚ :=
  results.foldl
    (fun acc r =>
      (acc.1 ++ [r], if pyTruthy r.error then acc.2 else acc.2 + r.total_hours))
    ([], 0)

/-! ### Synthetic log streams

Generators for well-formed boundary and numstat lines, used to state the
parsing claims.  Well-formedness captures exactly what the git log format
guarantees: fields contain no pipe characters (so the `'|||'` split
recovers them), numstat count fields contain no tabs and parse as numbers
(or are the `'-'` binary marker), and a numstat line does not start with
the boundary marker. -/

/-- No pipe character occurs in the field. -/
def noPipe (s : List Char) : Prop := ∀ c ∈ s, c ≠ '|'

/-- No tab character occurs in the field. -/
def noTab (s : List Char) : Prop := ∀ c ∈ s, c ≠ '\t'

instance (s : List Char) : Decidable (noPipe s) := by unfold noPipe; infer_instance

instance (s : List Char) : Decidable (noTab s) := by unfold noTab; infer_instance

/-- The data of a well-formed commit-boundary line: the five fields (with
the timestamp both as the raw field `tsS` and its parsed value `ts`). -/
structure BoundaryData where
  hash : List Char
  author : List Char
  email : List Char
  tsS : List Char
  message : List Char
  ts : Int
deriving DecidableEq, Repr

/-- The three-character field separator. -/
def sep3 : List Char := ['|', '|', '|']

/-- Render a commit-boundary line. -/
def renderBoundary (b : BoundaryData) : List Char :=
  bMarker ++ b.hash ++ sep3 ++ b.author ++ sep3 ++ b.email ++ sep3 ++ b.tsS ++ sep3 ++ b.message

/-- A boundary line is well formed when its fields are pipe-free and its
timestamp field parses as an integer. -/
def WFBoundary (b : BoundaryData) : Prop :=
  noPipe b.hash ∧ noPipe b.author ∧ noPipe b.email ∧ noPipe b.tsS ∧ noPipe b.message ∧
    pyInt b.tsS = some b.ts

/-- The data of a numstat line: additions field, deletions field, path. -/
structure NumLine where
  addS : List Char
  delS : List Char
  path : List Char
deriving DecidableEq, Repr

/-- Render a numstat line. -/
def renderNum (n : NumLine) : List Char := n.addS ++ ('\t' :: (n.delS ++ ('\t' :: n.path)))

/-- A numstat line is well formed when its count fields are tab-free and
parse (as a number or the `'-'` marker), and the line does not begin with
the boundary marker. -/
def WFNum (n : NumLine) : Prop :=
  noTab n.addS ∧ noTab n.delS ∧ (numVal n.addS).isSome ∧ (numVal n.delS).isSome ∧
    bMarker.isPrefixOf (renderNum n) = false

/-- A block: one boundary line followed by its numstat lines. -/
structure Block where
  bd : BoundaryData
  stats : List NumLine
deriving DecidableEq, Repr

/-- Render a block as its list of lines. -/
def renderBlock (bl : Block) : List (List Char) :=
  renderBoundary bl.bd :: bl.stats.map renderNum

/-- Render a block list as a log stream (no trailing boundary line). -/
def renderBlocks (bs : List Block) : List (List Char) :=
  (bs.map renderBlock).flatten

/-- A block is well formed when its boundary and all its numstat lines are. -/
def WFBlock (bl : Block) : Prop := WFBoundary bl.bd ∧ ∀ n ∈ bl.stats, WFNum n

/-- The fresh record built at a boundary line (lines 292–301). -/
def freshRec (b : BoundaryData) : CommitRec :=
  ⟨b.hash, b.author, b.email, b.ts, b.message, 0, 0, 0⟩

/-- Accumulate a block's numstat lines into a record, exactly as the
numstat branch does line by line. -/
def addStats (c : CommitRec) (ns : List NumLine) : CommitRec :=
  ns.foldl
    (fun c n => { c with files := c.files + 1,
                         additions := c.additions + numValD n.addS,
                         deletions := c.deletions + numValD n.delS }) c

/-- The record a block parses to. -/
def blockRec (bl : Block) : CommitRec := addStats (freshRec bl.bd) bl.stats

/-- Incremental first-occurrence filter keyed by hash: the records that the
emit logic lets through, given the hashes already seen. -/
def emitList (seen : List (List Char)) : List CommitRec → List CommitRec
  | [] => []
  | c :: rest =>
    if seen.contains c.hash then emitList seen rest
    else c :: emitList (c.hash :: seen) rest

/-! ### Lemmas about the split primitives on rendered lines -/

theorem splitPipes_ne (c : Char) (l acc : List Char) (hc : c ≠ '|') :
    splitPipes (c :: l) acc = splitPipes l (c :: acc) := by
  simp [splitPipes, hc]

theorem splitPipes_sep (a : List Char) (rest acc : List Char) (h : noPipe a) :
    splitPipes (a ++ '|' :: '|' :: '|' :: rest) acc = (acc.reverse ++ a) :: splitPipes rest [] := by
  induction a generalizing acc with
  | nil => simp [splitPipes]
  | cons c a ih =>
    have hc : c ≠ '|' := h c (by simp)
    have ha : noPipe a := fun x hx => h x (by simp [hx])
    rw [List.cons_append, splitPipes_ne _ _ _ hc, ih _ ha]
    simp

theorem splitPipes_last (a acc : List Char) (h : noPipe a) :
    splitPipes a acc = [acc.reverse ++ a] := by
  induction a generalizing acc with
  | nil => simp [splitPipes]
  | cons c a ih =>
    have hc : c ≠ '|' := h c (by simp)
    have ha : noPipe a := fun x hx => h x (by simp [hx])
    rw [splitPipes_ne _ _ _ hc, ih _ ha]
    simp

theorem splitTab_ne (c : Char) (l acc : List Char) (hc : c ≠ '\t') :
    splitTab (c :: l) acc = splitTab l (c :: acc) := by
  simp [splitTab, hc]

theorem splitTab_sep (a : List Char) (rest acc : List Char) (h : noTab a) :
    splitTab (a ++ '\t' :: rest) acc = (acc.reverse ++ a) :: splitTab rest [] := by
  induction a generalizing acc with
  | nil => simp [splitTab]
  | cons c a ih =>
    have hc : c ≠ '\t' := h c (by simp)
    have ha : noTab a := fun x hx => h x (by simp [hx])
    rw [List.cons_append, splitTab_ne _ _ _ hc, ih _ ha]
    simp

theorem splitTab_ne_nil (l acc : List Char) : splitTab l acc ≠ [] := by
  induction l generalizing acc with
  | nil => simp [splitTab]
  | cons c l ih =>
    unfold splitTab
    split_ifs <;> simp [ih]

theorem splitTab_renderNum (n : NumLine) (h1 : noTab n.addS) (h2 : noTab n.delS) :
    splitTab (renderNum n) [] = n.addS :: n.delS :: splitTab n.path [] := by
  unfold renderNum
  rw [splitTab_sep n.addS (n.delS ++ '\t' :: n.path) [] h1,
    splitTab_sep n.delS n.path [] h2]
  simp

theorem isPrefixOf_append_self (a b : List Char) : a.isPrefixOf (a ++ b) = true := by
  induction a with
  | nil => simp [List.isPrefixOf]
  | cons c a ih => simp [List.isPrefixOf, ih]

theorem bMarker_length : bMarker.length = 18 := rfl

theorem drop18_append (p : List Char) : (bMarker ++ p).drop 18 = p := by
  rw [← bMarker_length, List.drop_left]

theorem renderBoundary_eq (b : BoundaryData) :
    renderBoundary b =
      bMarker ++ (b.hash ++ '|' :: '|' :: '|' ::
        (b.author ++ '|' :: '|' :: '|' ::
          (b.email ++ '|' :: '|' :: '|' ::
            (b.tsS ++ '|' :: '|' :: '|' :: b.message)))) := by
  simp [renderBoundary, sep3]

theorem splitPipes_renderBoundary (b : BoundaryData) (hb : WFBoundary b) :
    splitPipes ((renderBoundary b).drop 18) [] =
      [b.hash, b.author, b.email, b.tsS, b.message] := by
  obtain ⟨h1, h2, h3, h4, h5, _⟩ := hb
  rw [renderBoundary_eq, drop18_append]
  rw [splitPipes_sep _ _ _ h1, splitPipes_sep _ _ _ h2, splitPipes_sep _ _ _ h3,
    splitPipes_sep _ _ _ h4, splitPipes_last _ _ h5]
  simp

theorem contains_tab_renderNum (n : NumLine) : (renderNum n).contains '\t' = true := by
  have h : '\t' ∈ renderNum n := by
    unfold renderNum
    simp
  simpa using h

/-! ### The effect of `step` on rendered lines -/

theorem step_boundary (s : PState) (b : BoundaryData) (hb : WFBoundary b) :
    step s (renderBoundary b) =
      some ⟨pyList (emitPhase s), (emitPhase s).seen, some (freshRec b), false⟩ := by
  have hpre : bMarker.isPrefixOf (renderBoundary b) = true := by
    rw [renderBoundary_eq]
    exact isPrefixOf_append_self _ _
  have hsplit := splitPipes_renderBoundary b hb
  have hts : pyInt b.tsS = some b.ts := hb.2.2.2.2.2
  unfold step
  rw [hpre]
  simp only [if_true]
  rw [hsplit]
  simp [hts, pyList, freshRec]

theorem step_num (s : PState) (c : CommitRec) (n : NumLine)
    (hcur : s.cur = some c) (hn : WFNum n) :
    step s (renderNum n) =
      some { s with cur := some { c with files := c.files + 1,
                                         additions := c.additions + numValD n.addS,
                                         deletions := c.deletions + numValD n.delS } } := by
  obtain ⟨h1, h2, h3, h4, h5⟩ := hn
  obtain ⟨a, ha⟩ := Option.isSome_iff_exists.mp h3
  obtain ⟨d, hd⟩ := Option.isSome_iff_exists.mp h4
  have hparts := splitTab_renderNum n h1 h2
  have hlen : 3 ≤ (splitTab (renderNum n) []).length := by
    rw [hparts]
    have := splitTab_ne_nil n.path []
    have hpos : 0 < (splitTab n.path []).length := List.length_pos.mpr this
    simp
    omega
  unfold step
  rw [h5]
  simp only [Bool.false_eq_true, if_false]
  rw [hcur]
  simp only [contains_tab_renderNum, if_true]
  rw [if_pos hlen]
  rw [hparts]
  simp only [List.getD_cons_zero, List.getD_cons_succ]
  rw [ha, hd]
  simp [numValD, ha, hd]

theorem runSteps_cons (s s1 : PState) (l : List Char) (ls : List (List Char))
    (hs : step s l = some s1) : runSteps s (l :: ls) = runSteps s1 ls := by
  simp [runSteps, hs]

theorem runSteps_nums (ns : List NumLine) (h : ∀ n ∈ ns, WFNum n)
    (fin : List CommitRec) (seen : List (List Char)) (em : Bool) (c : CommitRec)
    (rest : List (List Char)) :
    runSteps ⟨fin, seen, some c, em⟩ (ns.map renderNum ++ rest) =
      runSteps ⟨fin, seen, some (addStats c ns), em⟩ rest := by
  induction ns generalizing c with
  | nil => rfl
  | cons n ns ih =>
    have hn : WFNum n := h n (by simp)
    have hs := step_num ⟨fin, seen, some c, em⟩ c n rfl hn
    rw [List.map_cons, List.cons_append, runSteps_cons _ _ _ _ hs]
    exact ih (fun x hx => h x (by simp [hx])) _

theorem runSteps_blocks (bs : List Block) (h : ∀ bl ∈ bs, WFBlock bl)
    (fin : List CommitRec) (seen : List (List Char)) (c : CommitRec) :
    (runSteps ⟨fin, seen, some c, false⟩ (renderBlocks bs)).map finalize =
      some (fin ++ emitList seen (c :: bs.map blockRec)) := by
  induction bs generalizing fin seen c with
  | nil =>
    by_cases hc : c.hash ∈ seen
    · simp [renderBlocks, runSteps, finalize, emitList, hc]
    · simp [renderBlocks, runSteps, finalize, emitList, hc]
  | cons bl rest ih =>
    have hwf : WFBlock bl := h bl (by simp)
    have hlines : renderBlocks (bl :: rest) =
        renderBoundary bl.bd :: (bl.stats.map renderNum ++ renderBlocks rest) := by
      simp [renderBlocks, renderBlock]
    rw [hlines]
    have hstep := step_boundary ⟨fin, seen, some c, false⟩ bl.bd hwf.1
    by_cases hc : c.hash ∈ seen
    · have hemit : emitPhase ⟨fin, seen, some c, false⟩ = ⟨fin, seen, some c, false⟩ := by
        simp [emitPhase, hc]
      rw [hemit] at hstep
      have hpy : pyList ⟨fin, seen, some c, false⟩ = fin := by simp [pyList]
      rw [hpy] at hstep
      rw [runSteps_cons _ _ _ _ hstep]
      rw [runSteps_nums bl.stats hwf.2 _ _ _ _ _]
      have heq : addStats (freshRec bl.bd) bl.stats = blockRec bl := rfl
      rw [heq]
      rw [ih (fun x hx => h x (by simp [hx])) fin seen (blockRec bl)]
      simp [emitList, hc]
    · have hemit : emitPhase ⟨fin, seen, some c, false⟩ =
          ⟨fin, c.hash :: seen, some c, true⟩ := by
        simp [emitPhase, hc]
      rw [hemit] at hstep
      have hpy : pyList ⟨fin, c.hash :: seen, some c, true⟩ = fin ++ [c] := by simp [pyList]
      rw [hpy] at hstep
      rw [runSteps_cons _ _ _ _ hstep]
      rw [runSteps_nums bl.stats hwf.2 _ _ _ _ _]
      have heq : addStats (freshRec bl.bd) bl.stats = blockRec bl := rfl
      rw [heq]
      rw [ih (fun x hx => h x (by simp [hx])) (fin ++ [c]) (c.hash :: seen) (blockRec bl)]
      simp [emitList, hc]

/-- Full characterization of the parser on well-formed block streams: each
block yields its record, filtered incrementally by first-seen hash. -/
theorem parse_renderBlocks (bs : List Block) (h : ∀ bl ∈ bs, WFBlock bl) :
    parseLog (renderBlocks bs) = some (emitList [] (bs.map blockRec)) := by
  cases bs with
  | nil => rfl
  | cons bl rest =>
    have hwf : WFBlock bl := h bl (by simp)
    have hlines : renderBlocks (bl :: rest) =
        renderBoundary bl.bd :: (bl.stats.map renderNum ++ renderBlocks rest) := by
      simp [renderBlocks, renderBlock]
    unfold parseLog
    rw [hlines]
    have hstep := step_boundary initState bl.bd hwf.1
    have hemit : emitPhase initState = initState := rfl
    rw [hemit] at hstep
    have hpy : pyList initState = [] := rfl
    rw [hpy] at hstep
    have hinit : (initState.seen) = ([] : List (List Char)) := rfl
    rw [hinit] at hstep
    rw [runSteps_cons _ _ _ _ hstep]
    rw [runSteps_nums bl.stats hwf.2 _ _ _ _ _]
    have heq : addStats (freshRec bl.bd) bl.stats = blockRec bl := rfl
    rw [heq]
    have := runSteps_blocks rest (fun x hx => h x (by simp [hx])) [] [] (blockRec bl)
    rw [this]
    simp [emitList]

/-! ### Field characterization of accumulated records -/

theorem addStats_cons (c : CommitRec) (n : NumLine) (ns : List NumLine) :
    addStats c (n :: ns) =
      addStats { c with files := c.files + 1,
                        additions := c.additions + numValD n.addS,
                        deletions := c.deletions + numValD n.delS } ns := rfl

theorem addStats_hash (ns : List NumLine) : ∀ c, (addStats c ns).hash = c.hash := by
  induction ns with
  | nil => intro c; rfl
  | cons n ns ih => intro c; rw [addStats_cons, ih]

theorem addStats_timestamp (ns : List NumLine) :
    ∀ c, (addStats c ns).timestamp = c.timestamp := by
  induction ns with
  | nil => intro c; rfl
  | cons n ns ih => intro c; rw [addStats_cons, ih]

theorem addStats_files (ns : List NumLine) :
    ∀ c, (addStats c ns).files = c.files + ns.length := by
  induction ns with
  | nil => intro c; rfl
  | cons n ns ih =>
    intro c
    rw [addStats_cons, ih]
    simp
    omega

theorem addStats_additions (ns : List NumLine) :
    ∀ c, (addStats c ns).additions = c.additions + (ns.map (fun n => numValD n.addS)).sum := by
  induction ns with
  | nil => intro c; simp [addStats]
  | cons n ns ih =>
    intro c
    rw [addStats_cons, ih]
    simp
    ring

theorem addStats_deletions (ns : List NumLine) :
    ∀ c, (addStats c ns).deletions = c.deletions + (ns.map (fun n => numValD n.delS)).sum := by
  induction ns with
  | nil => intro c; simp [addStats]
  | cons n ns ih =>
    intro c
    rw [addStats_cons, ih]
    simp
    ring

theorem blockRec_files (bl : Block) : (blockRec bl).files = bl.stats.length := by
  rw [blockRec, addStats_files]
  simp [freshRec]

theorem blockRec_additions (bl : Block) :
    (blockRec bl).additions = (bl.stats.map (fun n => numValD n.addS)).sum := by
  rw [blockRec, addStats_additions]
  simp [freshRec]

theorem blockRec_deletions (bl : Block) :
    (blockRec bl).deletions = (bl.stats.map (fun n => numValD n.delS)).sum := by
  rw [blockRec, addStats_deletions]
  simp [freshRec]

theorem blockRec_hash (bl : Block) : (blockRec bl).hash = bl.bd.hash := by
  rw [blockRec, addStats_hash]
  rfl

/-! ### Properties of the incremental first-occurrence filter -/

theorem mem_emitList (recs : List CommitRec) :
    ∀ seen r, r ∈ emitList seen recs → r ∈ recs ∧ r.hash ∉ seen := by
  induction recs with
  | nil => intro seen r h; simp [emitList] at h
  | cons c rest ih =>
    intro seen r h
    unfold emitList at h
    by_cases hc : c.hash ∈ seen
    · rw [if_pos (by simpa using hc)] at h
      obtain ⟨h1, h2⟩ := ih seen r h
      exact ⟨by simp [h1], h2⟩
    · rw [if_neg (by simpa using hc)] at h
      rcases List.mem_cons.mp h with rfl | h
      · exact ⟨by simp, hc⟩
      · obtain ⟨h1, h2⟩ := ih _ r h
        have hx : r.hash ∉ seen := fun hy => h2 (by simp [hy])
        exact ⟨by simp [h1], hx⟩

theorem emitList_eq_self (recs : List CommitRec) :
    ∀ seen, (recs.map (fun c => c.hash)).Nodup → (∀ r ∈ recs, r.hash ∉ seen) →
      emitList seen recs = recs := by
  induction recs with
  | nil => intro seen _ _; rfl
  | cons c rest ih =>
    intro seen hnd hns
    unfold emitList
    rw [if_neg (by simpa using hns c (by simp))]
    congr 1
    have hnd' := hnd
    rw [List.map_cons, List.nodup_cons] at hnd'
    refine ih _ hnd'.2 ?_
    intro r hr
    simp only [List.mem_cons, not_or]
    constructor
    · intro hx
      exact hnd'.1 (List.mem_map.mpr ⟨r, hr, hx⟩)
    · exact hns r (by simp [hr])

theorem emitList_filter_nil (recs : List CommitRec) (seen : List (List Char))
    (hsh : List Char) (hmem : hsh ∈ seen) :
    (emitList seen recs).filter (fun x => x.hash == hsh) = [] := by
  rw [List.filter_eq_nil_iff]
  intro a ha
  have hx := (mem_emitList recs seen a ha).2
  simp only [beq_iff_eq]
  intro hy
  exact hx (hy ▸ hmem)

theorem emitList_filter_first (r : CommitRec) (post : List CommitRec) (pre : List CommitRec) :
    ∀ seen, (∀ p ∈ pre, p.hash ≠ r.hash) → r.hash ∉ seen →
      (emitList seen (pre ++ r :: post)).filter (fun x => x.hash == r.hash) = [r] := by
  induction pre with
  | nil =>
    intro seen _ hns
    simp only [List.nil_append]
    unfold emitList
    rw [if_neg (by simpa using hns)]
    rw [List.filter_cons_of_pos (by simp)]
    rw [emitList_filter_nil _ _ _ (by simp)]
  | cons p pre ih =>
    intro seen hpre hns
    simp only [List.cons_append]
    unfold emitList
    by_cases hc : p.hash ∈ seen
    · rw [if_pos (by simpa using hc)]
      exact ih seen (fun x hx => hpre x (by simp [hx])) hns
    · rw [if_neg (by simpa using hc)]
      rw [List.filter_cons_of_neg (by simpa using hpre p (by simp))]
      refine ih _ (fun x hx => hpre x (by simp [hx])) ?_
      simp only [List.mem_cons, not_or]
      exact ⟨fun hx => hpre p (by simp) hx.symm, hns⟩

/-! ### The hash-uniqueness invariant, over arbitrary streams -/

/-- Invariant of reachable parse states: the result list as Python sees it
(`pyList`) has pairwise-distinct hashes, all recorded in `seen`. -/
def StInv (s : PState) : Prop :=
  ((pyList s).map (fun c => c.hash)).Nodup ∧ ∀ r ∈ pyList s, r.hash ∈ s.seen

theorem initState_inv : StInv initState := by
  constructor <;> simp [pyList, initState]

theorem emitPhase_inv (s : PState) (hinv : StInv s) : StInv (emitPhase s) := by
  obtain ⟨fin, seen, cur, em⟩ := s
  obtain ⟨hnd, hseen⟩ := hinv
  cases cur with
  | none => exact ⟨hnd, hseen⟩
  | some c =>
    by_cases hc : c.hash ∈ seen
    · have heq : emitPhase ⟨fin, seen, some c, em⟩ = ⟨fin, seen, some c, em⟩ := by
        simp [emitPhase, hc]
      rw [heq]
      exact ⟨hnd, hseen⟩
    · have heq : emitPhase ⟨fin, seen, some c, em⟩ =
          ⟨fin, c.hash :: seen, some c, true⟩ := by
        simp [emitPhase, hc]
      rw [heq]
      have hem : em = false := by
        by_contra hx
        have hx' : em = true := by revert hx; cases em <;> simp
        have hmem : c ∈ pyList ⟨fin, seen, some c, em⟩ := by
          simp [pyList, hx']
        exact hc (hseen c hmem)
      subst hem
      have hpy : pyList ⟨fin, seen, some c, false⟩ = fin := by simp [pyList]
      have hpy' : pyList ⟨fin, c.hash :: seen, some c, true⟩ = fin ++ [c] := by
        simp [pyList]
      rw [hpy] at hnd hseen
      constructor
      · rw [hpy', List.map_append, List.nodup_append]
        refine ⟨hnd, by simp, ?_⟩
        intro a ha
        simp only [List.map_cons, List.map_nil, List.mem_singleton]
        intro hx
        subst hx
        obtain ⟨x, hx1, hx2⟩ := List.mem_map.mp ha
        have hx3 : x.hash ∈ seen := hseen x hx1
        exact hc (hx2 ▸ hx3)
      · intro r hr
        rw [hpy'] at hr
        simp only [PState.seen]
        rcases List.mem_append.mp hr with hr | hr
        · have hx := hseen r hr
          simp [hx]
        · simp only [List.mem_singleton] at hr
          subst hr
          simp

theorem step_inv (s s' : PState) (l : List Char) (hinv : StInv s)
    (hstep : step s l = some s') : StInv s' := by
  obtain ⟨fin, seen, cur, em⟩ := s
  unfold step at hstep
  by_cases hb : bMarker.isPrefixOf l = true
  · rw [if_pos (by simpa using hb)] at hstep
    have hinv1 := emitPhase_inv ⟨fin, seen, cur, em⟩ hinv
    by_cases hlen : (splitPipes (l.drop 18) []).length = 5
    · rw [if_pos hlen] at hstep
      cases hpi : pyInt ((splitPipes (l.drop 18) []).getD 3 []) with
      | none => rw [hpi] at hstep; exact absurd hstep (by simp)
      | some ts =>
        rw [hpi] at hstep
        obtain rfl : _ = s' := Option.some_injective _ hstep
        obtain ⟨hnd, hseen⟩ := hinv1
        constructor
        · simpa [pyList] using hnd
        · intro r hr
          simp only [pyList, List.append_nil] at hr ⊢
          exact hseen r (by simpa [pyList] using hr)
    · rw [if_neg hlen] at hstep
      obtain rfl : _ = s' := Option.some_injective _ hstep
      exact hinv1
  · rw [if_neg (by simpa using hb)] at hstep
    obtain ⟨hnd, hseen⟩ := hinv
    cases cur with
    | none =>
      obtain rfl : _ = s' := Option.some_injective _ hstep
      exact ⟨hnd, hseen⟩
    | some c =>
      dsimp only at hstep
      have key : ∀ c' : CommitRec, c'.hash = c.hash →
          StInv ⟨fin, seen, some c', em⟩ := by
        intro c' hh
        have hpy : pyList ⟨fin, seen, some c', em⟩ =
            fin ++ (if em = true then [c'] else []) := by
          simp [pyList]
        have hpy0 : pyList ⟨fin, seen, some c, em⟩ =
            fin ++ (if em = true then [c] else []) := by
          simp [pyList]
        rw [hpy0] at hnd hseen
        constructor
        · rw [hpy]
          cases em with
          | false =>
            simp only [Bool.false_eq_true, if_false, List.append_nil] at hnd ⊢
            exact hnd
          | true =>
            simp only [if_true] at hnd ⊢
            rw [List.map_append] at hnd ⊢
            simpa [hh] using hnd
        · intro r hr
          rw [hpy] at hr
          simp only [PState.seen]
          cases em with
          | false =>
            simp only [Bool.false_eq_true, if_false, List.append_nil] at hr hseen
            exact hseen r hr
          | true =>
            simp only [if_true] at hr hseen
            rcases List.mem_append.mp hr with hr | hr
            · exact hseen r (by simp [hr])
            · simp only [List.mem_singleton] at hr
              subst hr
              have hx := hseen c (by simp)
              simpa [hh] using hx
      by_cases hct : l.contains '\t' = true
      · rw [if_pos (by simpa using hct)] at hstep
        by_cases hl3 : 3 ≤ (splitTab l []).length
        · rw [if_pos hl3] at hstep
          cases hva : numVal ((splitTab l []).getD 0 []) with
          | none =>
            rw [hva] at hstep
            obtain rfl : _ = s' := Option.some_injective _ hstep
            exact key _ rfl
          | some a =>
            rw [hva] at hstep
            cases hvd : numVal ((splitTab l []).getD 1 []) with
            | none =>
              rw [hvd] at hstep
              obtain rfl : _ = s' := Option.some_injective _ hstep
              exact key _ rfl
            | some d =>
              rw [hvd] at hstep
              obtain rfl : _ = s' := Option.some_injective _ hstep
              exact key _ rfl
        · rw [if_neg hl3] at hstep
          obtain rfl : _ = s' := Option.some_injective _ hstep
          exact ⟨hnd, hseen⟩
      · rw [if_neg (by simpa using hct)] at hstep
        obtain rfl : _ = s' := Option.some_injective _ hstep
        exact ⟨hnd, hseen⟩

theorem runSteps_inv (ls : List (List Char)) :
    ∀ s s', StInv s → runSteps s ls = some s' → StInv s' := by
  induction ls with
  | nil =>
    intro s s' hinv h
    obtain rfl : s = s' := Option.some_injective _ h
    exact hinv
  | cons l ls ih =>
    intro s s' hinv h
    unfold runSteps at h
    cases hstep : step s l with
    | none => rw [hstep] at h; exact absurd h (by simp)
    | some s1 =>
      rw [hstep] at h
      exact ih s1 s' (step_inv s s1 l hinv hstep) h

theorem finalize_nodup (s : PState) (hinv : StInv s) :
    ((finalize s).map (fun c => c.hash)).Nodup := by
  obtain ⟨fin, seen, cur, em⟩ := s
  obtain ⟨hnd, hseen⟩ := hinv
  cases cur with
  | none =>
    have hx : pyList ⟨fin, seen, none, em⟩ = fin := by simp [pyList]
    rw [hx] at hnd
    exact hnd
  | some c =>
    cases em with
    | true =>
      have hx : pyList ⟨fin, seen, some c, true⟩ = fin ++ [c] := by simp [pyList]
      rw [hx] at hnd
      have heq : finalize ⟨fin, seen, some c, true⟩ = fin ++ [c] := by
        simp [finalize]
      rw [heq]
      exact hnd
    | false =>
      have hpy : pyList ⟨fin, seen, some c, false⟩ = fin := by simp [pyList]
      rw [hpy] at hnd hseen
      by_cases hc : c.hash ∈ seen
      · have heq : finalize ⟨fin, seen, some c, false⟩ = fin := by
          simp [finalize, hc]
        rw [heq]
        exact hnd
      · have heq : finalize ⟨fin, seen, some c, false⟩ = fin ++ [c] := by
          simp [finalize, hc]
        rw [heq]
        rw [List.map_append, List.nodup_append]
        refine ⟨hnd, by simp, ?_⟩
        intro a ha
        simp only [List.map_cons, List.map_nil, List.mem_singleton]
        intro hx
        subst hx
        obtain ⟨x, hx1, hx2⟩ := List.mem_map.mp ha
        have hx3 : x.hash ∈ seen := hseen x hx1
        exact hc (hx2 ▸ hx3)

/-- Hash uniqueness for every successful parse of any stream. -/
theorem parseLog_hash_nodup (ls : List (List Char)) (cs : List CommitRec)
    (h : parseLog ls = some cs) : (cs.map (fun c => c.hash)).Nodup := by
  unfold parseLog at h
  cases hrun : runSteps initState ls with
  | none => rw [hrun] at h; exact absurd h (by simp)
  | some s =>
    rw [hrun] at h
    obtain rfl : finalize s = cs := Option.some_injective _ h
    exact finalize_nodup s (runSteps_inv ls initState s initState_inv hrun)

/-! ### The non-negativity invariant, over streams with non-negative counts -/

/-- The parsed value of a line's first tab field (0 when absent/unparsable). -/
def lineVal0 (l : List Char) : Int := numValD ((splitTab l []).getD 0 [])

/-- The parsed value of a line's second tab field (0 when absent/unparsable). -/
def lineVal1 (l : List Char) : Int := numValD ((splitTab l []).getD 1 [])

/-- All records the state holds (finished and current). -/
def allRecs (s : PState) : List CommitRec :=
  s.finished ++ (match s.cur with | some c => [c] | none => [])

/-- Non-negativity of every held record's counters. -/
def NNInv (s : PState) : Prop := ∀ r ∈ allRecs s, 0 ≤ r.additions ∧ 0 ≤ r.deletions

theorem emitPhase_allRecs (s : PState) : allRecs (emitPhase s) = allRecs s := by
  obtain ⟨fin, seen, cur, em⟩ := s
  cases cur with
  | none => rfl
  | some c =>
    by_cases hc : c.hash ∈ seen
    · simp [emitPhase, hc]
    · simp [emitPhase, hc, allRecs]

theorem emitPhase_nn (s : PState) (hinv : NNInv s) : NNInv (emitPhase s) := by
  intro r hr
  rw [emitPhase_allRecs] at hr
  exact hinv r hr

theorem pyList_subset_allRecs (s : PState) (r : CommitRec) (hr : r ∈ pyList s) :
    r ∈ allRecs s := by
  obtain ⟨fin, seen, cur, em⟩ := s
  cases cur with
  | none => simpa [pyList, allRecs] using hr
  | some c =>
    simp only [pyList] at hr
    simp only [allRecs]
    rcases List.mem_append.mp hr with hr | hr
    · simp [hr]
    · cases em with
      | false => simp at hr
      | true =>
        simp only [if_true, List.mem_singleton] at hr
        simp [hr]

theorem allRecs_mk (fin : List CommitRec) (seen : List (List Char)) (x : CommitRec)
    (em : Bool) : allRecs ⟨fin, seen, some x, em⟩ = fin ++ [x] := rfl

theorem step_nn (s s' : PState) (l : List Char) (hinv : NNInv s)
    (hl0 : 0 ≤ lineVal0 l) (hl1 : 0 ≤ lineVal1 l)
    (hstep : step s l = some s') : NNInv s' := by
  obtain ⟨fin, seen, cur, em⟩ := s
  unfold step at hstep
  by_cases hb : bMarker.isPrefixOf l = true
  · rw [if_pos (by simpa using hb)] at hstep
    have hinv1 := emitPhase_nn ⟨fin, seen, cur, em⟩ hinv
    by_cases hlen : (splitPipes (l.drop 18) []).length = 5
    · rw [if_pos hlen] at hstep
      cases hpi : pyInt ((splitPipes (l.drop 18) []).getD 3 []) with
      | none => rw [hpi] at hstep; exact absurd hstep (by simp)
      | some ts =>
        rw [hpi] at hstep
        obtain rfl : _ = s' := Option.some_injective _ hstep
        intro r hr
        rw [allRecs_mk] at hr
        rcases List.mem_append.mp hr with hr | hr
        · exact hinv1 r (pyList_subset_allRecs _ r hr)
        · simp only [List.mem_singleton] at hr
          subst hr
          exact ⟨le_refl 0, le_refl 0⟩
    · rw [if_neg hlen] at hstep
      obtain rfl : _ = s' := Option.some_injective _ hstep
      exact hinv1
  · rw [if_neg (by simpa using hb)] at hstep
    cases cur with
    | none =>
      obtain rfl : _ = s' := Option.some_injective _ hstep
      exact hinv
    | some c =>
      dsimp only at hstep
      have hc : 0 ≤ c.additions ∧ 0 ≤ c.deletions := by
        refine hinv c ?_
        simp [allRecs]
      have key : ∀ c' : CommitRec, 0 ≤ c'.additions → 0 ≤ c'.deletions →
          NNInv ⟨fin, seen, some c', em⟩ := by
        intro c' h1 h2 r hr
        simp only [allRecs, List.mem_append] at hr
        rcases hr with hr | hr
        · refine hinv r ?_
          simp [allRecs, hr]
        · simp only [List.mem_singleton] at hr
          subst hr
          exact ⟨h1, h2⟩
      by_cases hct : l.contains '\t' = true
      · rw [if_pos (by simpa using hct)] at hstep
        by_cases hl3 : 3 ≤ (splitTab l []).length
        · rw [if_pos hl3] at hstep
          cases hva : numVal ((splitTab l []).getD 0 []) with
          | none =>
            rw [hva] at hstep
            obtain rfl : _ = s' := Option.some_injective _ hstep
            exact key _ hc.1 hc.2
          | some a =>
            rw [hva] at hstep
            cases hvd : numVal ((splitTab l []).getD 1 []) with
            | none =>
              rw [hvd] at hstep
              obtain rfl : _ = s' := Option.some_injective _ hstep
              exact key _ hc.1 hc.2
            | some d =>
              rw [hvd] at hstep
              obtain rfl : _ = s' := Option.some_injective _ hstep
              have ha : (0 : Int) ≤ a := by
                have hx : lineVal0 l = a := by
                  simp only [lineVal0, numValD, hva, Option.getD_some]
                rw [hx] at hl0
                exact hl0
              have hd : (0 : Int) ≤ d := by
                have hx : lineVal1 l = d := by
                  simp only [lineVal1, numValD, hvd, Option.getD_some]
                rw [hx] at hl1
                exact hl1
              refine key _ ?_ ?_
              · simpa using add_nonneg hc.1 ha
              · simpa using add_nonneg hc.2 hd
        · rw [if_neg hl3] at hstep
          obtain rfl : _ = s' := Option.some_injective _ hstep
          exact hinv
      · rw [if_neg (by simpa using hct)] at hstep
        obtain rfl : _ = s' := Option.some_injective _ hstep
        exact hinv

theorem runSteps_nn (ls : List (List Char)) :
    ∀ s s', NNInv s → (∀ l ∈ ls, 0 ≤ lineVal0 l ∧ 0 ≤ lineVal1 l) →
      runSteps s ls = some s' → NNInv s' := by
  induction ls with
  | nil =>
    intro s s' hinv _ h
    obtain rfl : s = s' := Option.some_injective _ h
    exact hinv
  | cons l ls ih =>
    intro s s' hinv hl h
    unfold runSteps at h
    cases hstep : step s l with
    | none => rw [hstep] at h; exact absurd h (by simp)
    | some s1 =>
      rw [hstep] at h
      have h0 := hl l (by simp)
      exact ih s1 s' (step_nn s s1 l hinv h0.1 h0.2 hstep)
        (fun x hx => hl x (by simp [hx])) h

theorem finalize_subset (s : PState) (r : CommitRec) (hr : r ∈ finalize s) :
    r ∈ allRecs s := by
  obtain ⟨fin, seen, cur, em⟩ := s
  cases cur with
  | none => simpa [finalize, allRecs] using hr
  | some c =>
    simp only [finalize] at hr
    simp only [allRecs]
    cases em with
    | true =>
      simp only [if_true] at hr
      simpa using hr
    | false =>
      by_cases hc : seen.contains c.hash = true
      · rw [if_neg (by simp), if_pos hc] at hr
        simp [hr]
      · rw [if_neg (by simp), if_neg hc] at hr
        simpa using hr

/-- Non-negativity of counters for every successful parse of a stream whose
tab fields never carry a negative parsed value. -/
theorem parseLog_nonneg (ls : List (List Char)) (cs : List CommitRec)
    (hl : ∀ l ∈ ls, 0 ≤ lineVal0 l ∧ 0 ≤ lineVal1 l)
    (h : parseLog ls = some cs) : ∀ c ∈ cs, 0 ≤ c.additions ∧ 0 ≤ c.deletions := by
  unfold parseLog at h
  cases hrun : runSteps initState ls with
  | none => rw [hrun] at h; exact absurd h (by simp)
  | some s =>
    rw [hrun] at h
    obtain rfl : finalize s = cs := Option.some_injective _ h
    intro c hcm
    have hnn : NNInv initState := by intro r hr; simp [allRecs, initState] at hr
    exact runSteps_nn ls initState s hnn hl hrun c (finalize_subset s c hcm)

/-! ### Lemmas about the rounding and normalization arithmetic -/

theorem pyRound_ge_floor (x : ℚ) : ⌊x⌋ ≤ pyRound x := by
  unfold pyRound
  split_ifs <;> omega

theorem pyRound_le_floor_add_one (x : ℚ) : pyRound x ≤ ⌊x⌋ + 1 := by
  unfold pyRound
  split_ifs <;> omega

theorem pyRound_nonneg (x : ℚ) (hx : 0 ≤ x) : 0 ≤ pyRound x := by
  have h : (0 : ℤ) ≤ ⌊x⌋ := Int.floor_nonneg.mpr hx
  have := pyRound_ge_floor x
  omega

theorem pyRound_intCast (n : ℤ) : pyRound (n : ℚ) = n := by
  unfold pyRound
  rw [Int.floor_intCast]
  norm_num

theorem pyRound_mono {x y : ℚ} (h : x ≤ y) : pyRound x ≤ pyRound y := by
  rcases lt_or_eq_of_le (Int.floor_le_floor h) with hf | hf
  · calc pyRound x ≤ ⌊x⌋ + 1 := pyRound_le_floor_add_one x
      _ ≤ ⌊y⌋ := by omega
      _ ≤ pyRound y := pyRound_ge_floor y
  · unfold pyRound
    rw [← hf]
    have hxy : x - ⌊x⌋ ≤ y - ⌊x⌋ := by linarith
    split_ifs <;> first | omega | linarith

theorem round_to_half_hour_mono {x y : ℚ} (h : x ≤ y) :
    round_to_half_hour x ≤ round_to_half_hour y := by
  unfold round_to_half_hour
  have h2 : x * 2 ≤ y * 2 := by linarith
  have := pyRound_mono h2
  have hc : ((pyRound (x * 2) : ℚ)) ≤ ((pyRound (y * 2) : ℚ)) := by exact_mod_cast this
  linarith

theorem round_to_half_hour_nonneg (x : ℚ) (hx : 0 ≤ x) : 0 ≤ round_to_half_hour x := by
  unfold round_to_half_hour
  have : (0 : ℤ) ≤ pyRound (x * 2) := pyRound_nonneg _ (by linarith)
  have hc : (0 : ℚ) ≤ (pyRound (x * 2) : ℚ) := by exact_mod_cast this
  linarith

theorem round_to_half_hour_int (n : ℤ) : round_to_half_hour (n : ℚ) = 2 * n / 2 := by
  unfold round_to_half_hour
  have : ((n : ℚ)) * 2 = ((2 * n : ℤ) : ℚ) := by push_cast; ring
  rw [this, pyRound_intCast]
  push_cast
  ring_nf

theorem round_to_half_hour_ten : round_to_half_hour (10 : ℚ) = 10 := by
  have h : ((10 : ℚ)) = ((10 : ℤ) : ℚ) := by norm_num
  rw [h, round_to_half_hour_int]
  norm_num

theorem round_to_half_hour_ge_ten {x : ℚ} (hx : 10 < x) : 10 ≤ round_to_half_hour x := by
  unfold round_to_half_hour
  have hfl : (20 : ℤ) ≤ ⌊x * 2⌋ := by
    rw [Int.le_floor]
    push_cast
    linarith
  have := pyRound_ge_floor (x * 2)
  have h20 : (20 : ℤ) ≤ pyRound (x * 2) := le_trans hfl this
  have hc : (20 : ℚ) ≤ (pyRound (x * 2) : ℚ) := by exact_mod_cast h20
  linarith

/-- Half-hour granularity: `round_to_half_hour` always returns an integer
multiple of `1/2`. -/
theorem round_to_half_hour_half_multiple (x : ℚ) :
    ∃ k : ℤ, round_to_half_hour x = (k : ℚ) / 2 :=
  ⟨pyRound (x * 2), rfl⟩

/-- Evaluate `pyRound` when the value sits strictly below the half-way
point of its floor interval. -/
theorem pyRound_eq_low (x : ℚ) (n : ℤ) (h1 : (n : ℚ) ≤ x) (h2 : x < n + 1 / 2) :
    pyRound x = n := by
  have hf : ⌊x⌋ = n := Int.floor_eq_iff.mpr ⟨h1, by linarith⟩
  unfold pyRound
  rw [hf]
  rw [if_pos (by linarith)]

/-- Evaluate `pyRound` when the value sits strictly above the half-way
point of its floor interval. -/
theorem pyRound_eq_high (x : ℚ) (n : ℤ) (h1 : (n : ℚ) + 1 / 2 < x) (h2 : x < n + 1) :
    pyRound x = n + 1 := by
  have hf : ⌊x⌋ = n := Int.floor_eq_iff.mpr ⟨by linarith, by linarith⟩
  unfold pyRound
  rw [hf]
  rw [if_neg (by linarith), if_pos (by linarith)]

/-- Evaluate `round_to_half_hour` at a value whose double is an integer. -/
theorem round_to_half_hour_eq_int (x : ℚ) (n : ℤ) (h : x * 2 = (n : ℚ)) :
    round_to_half_hour x = (n : ℚ) / 2 := by
  unfold round_to_half_hour
  rw [h, pyRound_intCast]

/-- Evaluate `round_to_half_hour` when the doubled value rounds down. -/
theorem round_to_half_hour_eq_low (x : ℚ) (n : ℤ) (h1 : (n : ℚ) ≤ x * 2)
    (h2 : x * 2 < n + 1 / 2) : round_to_half_hour x = (n : ℚ) / 2 := by
  unfold round_to_half_hour
  rw [pyRound_eq_low (x * 2) n h1 h2]

/-- Clamping at `FALLBACK_MAX_HOURS = 40` before the divide-by-4 /
round-to-half-hour / cap-at-10 normalization is extensionally the same as
not clamping at all: the post-normalization cap at 10 absorbs it. -/
theorem clamp_forty_absorbed (x : ℚ) :
    min (round_to_half_hour (min x 40 / 4)) 10 = min (round_to_half_hour (x / 4)) 10 := by
  rcases le_or_lt x 40 with h | h
  · rw [min_eq_left h]
  · have h40 : min x 40 = 40 := min_eq_right (le_of_lt h)
    rw [h40]
    have hl : round_to_half_hour ((40 : ℚ) / 4) = 10 := by
      norm_num [round_to_half_hour_ten]
    have hr : 10 ≤ round_to_half_hour (x / 4) :=
      round_to_half_hour_ge_ten (by linarith)
    rw [hl]
    rw [min_eq_right hr, min_self]

/-- The spec's `FallbackEstimator` clamp formula followed by the
orchestrator normalization agrees exactly with the inlined fallback
expression of the source, for every non-empty batch. -/
theorem specFallback_agrees (L : ℤ) (n : ℕ) (hn : 0 < n) :
    min (round_to_half_hour (specFallbackEstimate L n / 4)) 10 = fallbackHours L := by
  unfold specFallbackEstimate fallbackHours
  rw [if_pos hn]
  exact clamp_forty_absorbed (FALLBACK_BASE_HOURS + (L : ℚ) / FALLBACK_LINES_PER_HOUR)

theorem fallbackHours_le_ten (L : ℤ) : fallbackHours L ≤ 10 := min_le_right _ _

theorem fallbackHours_mono (L1 L2 : ℤ) (h : L1 ≤ L2) :
    fallbackHours L1 ≤ fallbackHours L2 := by
  unfold fallbackHours FALLBACK_BASE_HOURS FALLBACK_LINES_PER_HOUR
  refine min_le_min (round_to_half_hour_mono ?_) (le_refl 10)
  have hc : (L1 : ℚ) ≤ (L2 : ℚ) := by exact_mod_cast h
  linarith

/-! ### Malformed boundary lines -/

/-- On a boundary-marked line whose payload does not split into exactly
five fields, `step` performs only the emit phase: no exception, no
record created or removed, the current record kept. -/
theorem step_malformed (s : PState) (l : List Char)
    (hb : bMarker.isPrefixOf l = true)
    (hlen : (splitPipes (l.drop 18) []).length ≠ 5) :
    step s l = some (emitPhase s) := by
  unfold step
  rw [if_pos (by simpa using hb), if_neg hlen]

/-- The emit phase never changes the final outcome: it only brings forward
the append that `finalize` would do at end of stream. -/
theorem finalize_emitPhase (s : PState) : finalize (emitPhase s) = finalize s := by
  obtain ⟨fin, seen, cur, em⟩ := s
  cases cur with
  | none => rfl
  | some c =>
    by_cases hc : c.hash ∈ seen
    · have heq : emitPhase ⟨fin, seen, some c, em⟩ = ⟨fin, seen, some c, em⟩ := by
        simp [emitPhase, hc]
      rw [heq]
    · have heq : emitPhase ⟨fin, seen, some c, em⟩ = ⟨fin, c.hash :: seen, some c, true⟩ := by
        simp [emitPhase, hc]
      rw [heq]
      cases em with
      | true => simp [finalize]
      | false => simp [finalize, hc]

theorem runSteps_append (l1 l2 : List (List Char)) :
    ∀ s, runSteps s (l1 ++ l2) =
      match runSteps s l1 with
      | none => none
      | some s1 => runSteps s1 l2 := by
  induction l1 with
  | nil => intro s; rfl
  | cons l l1 ih =>
    intro s
    rw [List.cons_append]
    cases hstep : step s l with
    | none =>
      have h1 : runSteps s (l :: (l1 ++ l2)) = none := by
        unfold runSteps
        rw [hstep]
      have h2 : runSteps s (l :: l1) = none := by
        unfold runSteps
        rw [hstep]
      rw [h1, h2]
    | some s1 =>
      rw [runSteps_cons s s1 l (l1 ++ l2) hstep, runSteps_cons s s1 l l1 hstep]
      exact ih s1

/-- Appending a malformed boundary line at the end of any stream does not
change the parse result at all. -/
theorem parseLog_append_malformed (ws : List (List Char)) (l : List Char)
    (hb : bMarker.isPrefixOf l = true)
    (hlen : (splitPipes (l.drop 18) []).length ≠ 5) :
    parseLog (ws ++ [l]) = parseLog ws := by
  unfold parseLog
  rw [runSteps_append ws [l]]
  cases hrun : runSteps initState ws with
  | none => rfl
  | some s =>
    have hstep := step_malformed s l hb hlen
    have hr : runSteps s [l] = some (emitPhase s) := by
      unfold runSteps
      rw [hstep]
      rfl
    dsimp only
    rw [hr]
    simp [finalize_emitPhase]

/-- A malformed boundary line arriving after one well-formed block: the
block's record is emitted at that point (not abandoned), and numstat lines
after the malformed line continue to accumulate into the already-emitted
record (the Python list holds a reference to the still-current dict). -/
theorem parse_malformed_continuation (bl : Block) (l : List Char) (ns2 : List NumLine)
    (hwf : WFBlock bl)
    (hb : bMarker.isPrefixOf l = true)
    (hlen : (splitPipes (l.drop 18) []).length ≠ 5)
    (hns2 : ∀ n ∈ ns2, WFNum n) :
    parseLog (renderBoundary bl.bd :: (bl.stats.map renderNum ++ (l :: ns2.map renderNum))) =
      some [addStats (blockRec bl) ns2] := by
  unfold parseLog
  have hstep := step_boundary initState bl.bd hwf.1
  have hemit0 : emitPhase initState = initState := rfl
  rw [hemit0] at hstep
  have hpy : pyList initState = [] := rfl
  rw [hpy] at hstep
  have hinit : (initState.seen) = ([] : List (List Char)) := rfl
  rw [hinit] at hstep
  rw [runSteps_cons _ _ _ _ hstep]
  rw [runSteps_nums bl.stats hwf.2 _ _ _ _ _]
  have heq : addStats (freshRec bl.bd) bl.stats = blockRec bl := rfl
  rw [heq]
  have hemit1 : emitPhase ⟨[], [], some (blockRec bl), false⟩ =
      ⟨[], [(blockRec bl).hash], some (blockRec bl), true⟩ := by
    simp [emitPhase]
  have hstep1 : step ⟨[], [], some (blockRec bl), false⟩ l =
      some ⟨[], [(blockRec bl).hash], some (blockRec bl), true⟩ := by
    rw [step_malformed _ _ hb hlen, hemit1]
  rw [runSteps_cons _ _ _ _ hstep1]
  rw [show (ns2.map renderNum) = ns2.map renderNum ++ [] by simp]
  rw [runSteps_nums ns2 hns2 _ _ _ _ _]
  simp [runSteps, finalize]

/-! ### Decidability of the well-formedness side conditions -/

instance (b : BoundaryData) : Decidable (WFBoundary b) := by
  unfold WFBoundary; infer_instance

instance (n : NumLine) : Decidable (WFNum n) := by
  unfold WFNum; infer_instance

instance (bl : Block) : Decidable (WFBlock bl) := by
  unfold WFBlock; infer_instance

/-! ### The day-runner aggregation loop -/

theorem dayRunner_foldl (rs : List ProjResult) :
    ∀ l0 t0, rs.foldl
        (fun acc r =>
          (acc.1 ++ [r], if pyTruthy r.error then acc.2 else acc.2 + r.total_hours))
        (l0, t0) =
      (l0 ++ rs,
        t0 + ((rs.filter (fun r => pyTruthy r.error = false)).map
          (fun r => r.total_hours)).sum) := by
  induction rs with
  | nil => intro l0 t0; simp
  | cons r rs ih =>
    intro l0 t0
    rw [List.foldl_cons, ih]
    cases ht : pyTruthy r.error with
    | true => simp [ht]
    | false =>
      simp [ht]
      ring

theorem dayRunner_spec (rs : List ProjResult) :
    dayRunner rs =
      (rs, ((rs.filter (fun r => pyTruthy r.error = false)).map
        (fun r => r.total_hours)).sum) := by
  unfold dayRunner
  rw [dayRunner_foldl rs [] 0]
  simp


/-! ### String truthiness helpers -/

theorem pyTruthy_some (e : String) (he : e ≠ "") : pyTruthy (some e) = true := by
  have hx : e.isEmpty = false := by
    cases hy : e.isEmpty with
    | true => exact absurd ((String.isEmpty_iff e).mp hy) he
    | false => rfl
  simp [pyTruthy, hx]

theorem append_ne_empty_left (s t : String) (hs : s.length ≠ 0) : s ++ t ≠ "" := by
  intro h
  have hlen : (s ++ t).length = 0 := by rw [h]; rfl
  rw [String.length_append] at hlen
  omega

theorem min_rhh_half_multiple (x : ℚ) :
    ∃ k : ℤ, min (round_to_half_hour x) 10 = (k : ℚ) / 2 := by
  rcases le_total (round_to_half_hour x) 10 with h | h
  · rw [min_eq_left h]
    exact ⟨pyRound (x * 2), rfl⟩
  · rw [min_eq_right h]
    exact ⟨20, by norm_num⟩

/-! ### Sample data for witnesses and counterexamples -/

/-- A sample commit record. -/
def sampleCommit : CommitRec :=
  ⟨"aaa1".toList, "al".toList, "al@x.co".toList, 1700000000, "fix bug".toList, 1, 3, 1⟩

/-- A sample well-formed boundary line's data. -/
def sampleBoundary : BoundaryData :=
  ⟨"aaa1".toList, "al".toList, "al@x.co".toList, "1700000000".toList, "fix bug".toList,
    1700000000⟩

/-- A second boundary with a distinct hash. -/
def sampleBoundaryB : BoundaryData :=
  ⟨"bbb2".toList, "al".toList, "al@x.co".toList, "1700000100".toList, "more".toList,
    1700000100⟩

/-- Sample numstat lines. -/
def sampleNum : NumLine := ⟨"3".toList, "1".toList, "f.py".toList⟩

def sampleNum2 : NumLine := ⟨"2".toList, "0".toList, "g.py".toList⟩

/-- Sample blocks: `sampleBlockDup` repeats `sampleBlock`'s hash with
different statistics. -/
def sampleBlock : Block := ⟨sampleBoundary, [sampleNum]⟩

def sampleBlockB : Block := ⟨sampleBoundaryB, [sampleNum2]⟩

def sampleBlockDup : Block := ⟨sampleBoundary, [sampleNum2]⟩

/-- A boundary-marked line whose payload has one field instead of five. -/
def malformedLine : List Char := bMarker ++ "bad".toList

/-! ### Claims -/

/-- C2: for every well-formed log stream of N boundary lines each followed
by M numstat lines (distinct hashes, no trailing boundary), the parser
yields exactly N records, each with `files = M` and additions/deletions
equal to the sums of its numstat entries (`'-'` counted as 0 by `numVal`);
the last record is emitted at end of stream even though no boundary line
follows it. -/
theorem claim_C2_parser_counts (bs : List Block) (M : Nat)
    (hwf : ∀ bl ∈ bs, WFBlock bl)
    (hdis : (bs.map (fun bl => bl.bd.hash)).Nodup)
    (hM : ∀ bl ∈ bs, bl.stats.length = M) :
    parseLog (renderBlocks bs) = some (bs.map blockRec) ∧
    (bs.map blockRec).length = bs.length ∧
    ∀ bl ∈ bs, (blockRec bl).files = M ∧
      (blockRec bl).additions = (bl.stats.map (fun n => numValD n.addS)).sum ∧
      (blockRec bl).deletions = (bl.stats.map (fun n => numValD n.delS)).sum := by
  have hnd : ((bs.map blockRec).map (fun c => c.hash)).Nodup := by
    rw [List.map_map]
    have hx : (fun c => CommitRec.hash c) ∘ blockRec = fun bl => bl.bd.hash := by
      funext bl
      exact blockRec_hash bl
    rw [hx]
    exact hdis
  have hself : emitList [] (bs.map blockRec) = bs.map blockRec :=
    emitList_eq_self _ [] hnd (by simp)
  refine ⟨?_, by simp, ?_⟩
  · rw [parse_renderBlocks bs hwf, hself]
  · intro bl hbl
    exact ⟨by rw [blockRec_files, hM bl hbl], blockRec_additions bl, blockRec_deletions bl⟩

/-- Witness for C2 at one block with one numstat line. -/
theorem claim_C2_witness :
    (∀ bl ∈ [sampleBlock], WFBlock bl) ∧
    parseLog (renderBlocks [sampleBlock]) = some ([sampleBlock].map blockRec) :=
  ⟨by decide, (claim_C2_parser_counts [sampleBlock] 1 (by decide) (by decide) (by decide)).1⟩

/-- C3 counterexample: feeding a well-formed block followed by a malformed
boundary line, the record that was accumulating when the malformed boundary
arrived IS in the returned sequence (with its accumulated statistics) —
the claim says it is abandoned and absent. -/
theorem claim_C3_counterexample :
    parseLog [renderBoundary sampleBoundary, renderNum sampleNum, malformedLine] =
      some [⟨"aaa1".toList, "al".toList, "al@x.co".toList, 1700000000,
        "fix bug".toList, 1, 3, 1⟩] ∧
    parseLog [renderBoundary sampleBoundary, renderNum sampleNum, malformedLine] ≠
      some [] := by
  constructor
  · decide
  · decide

/-- C3 (amended): a boundary-marked line whose field count is not five is
dropped silently — no exception, no new record — but the record
accumulating at that moment is not abandoned: the emit phase has already
run, so (if its hash is unseen) it is finalized then and appears in the
output, and subsequent numstat lines keep accumulating into that
already-emitted record until the next well-formed boundary. -/
theorem claim_C3_malformed_boundary :
    (∀ (s : PState) (l : List Char), bMarker.isPrefixOf l = true →
        (splitPipes (l.drop 18) []).length ≠ 5 → step s l = some (emitPhase s)) ∧
    (∀ (ws : List (List Char)) (l : List Char), bMarker.isPrefixOf l = true →
        (splitPipes (l.drop 18) []).length ≠ 5 →
        parseLog (ws ++ [l]) = parseLog ws) ∧
    (∀ (bl : Block) (l : List Char) (ns2 : List NumLine), WFBlock bl →
        bMarker.isPrefixOf l = true → (splitPipes (l.drop 18) []).length ≠ 5 →
        (∀ n ∈ ns2, WFNum n) →
        parseLog (renderBoundary bl.bd :: (bl.stats.map renderNum ++ (l :: ns2.map renderNum))) =
          some [addStats (blockRec bl) ns2]) :=
  ⟨fun s l hb hlen => step_malformed s l hb hlen,
   fun ws l hb hlen => parseLog_append_malformed ws l hb hlen,
   fun bl l ns2 hwf hb hlen hns2 => parse_malformed_continuation bl l ns2 hwf hb hlen hns2⟩

/-- Witness for C3 (amended), applied at a concrete malformed line. -/
theorem claim_C3_witness :
    (bMarker.isPrefixOf malformedLine = true ∧
      (splitPipes (malformedLine.drop 18) []).length ≠ 5) ∧
    parseLog ([renderBoundary sampleBoundary, renderNum sampleNum] ++ [malformedLine]) =
      parseLog [renderBoundary sampleBoundary, renderNum sampleNum] :=
  ⟨⟨by decide, by decide⟩,
   claim_C3_malformed_boundary.2.1 [renderBoundary sampleBoundary, renderNum sampleNum]
     malformedLine (by decide) (by decide)⟩

/-- C4: when a hash occurs on several boundary lines of a well-formed block
stream, the output carries exactly one record for it — the first
occurrence's, with the first occurrence's statistics (later occurrences
dropped entirely, not merged); and the filtering is incremental: after any
prefix of any stream, the result list Python has accumulated already has
pairwise distinct hashes (no duplicate is ever exposed mid-parse). -/
theorem claim_C4_dedup_first (pre : List Block) (bl : Block) (post : List Block)
    (hwf : ∀ b ∈ pre ++ bl :: post, WFBlock b)
    (hfirst : ∀ p ∈ pre, p.bd.hash ≠ bl.bd.hash)
    (_hdup : ∃ b ∈ post, b.bd.hash = bl.bd.hash) :
    (∃ cs, parseLog (renderBlocks (pre ++ bl :: post)) = some cs ∧
      cs.filter (fun r => r.hash == bl.bd.hash) = [blockRec bl]) ∧
    (blockRec bl).files = bl.stats.length ∧
    (blockRec bl).additions = (bl.stats.map (fun n => numValD n.addS)).sum ∧
    (blockRec bl).deletions = (bl.stats.map (fun n => numValD n.delS)).sum ∧
    (∀ (ls : List (List Char)) (s : PState), runSteps initState ls = some s →
      ((pyList s).map (fun c => c.hash)).Nodup) := by
  refine ⟨?_, blockRec_files bl, blockRec_additions bl, blockRec_deletions bl, ?_⟩
  · refine ⟨emitList [] ((pre ++ bl :: post).map blockRec), parse_renderBlocks _ hwf, ?_⟩
    have hsplit : (pre ++ bl :: post).map blockRec =
        pre.map blockRec ++ blockRec bl :: post.map blockRec := by
      simp
    rw [hsplit]
    have hh : (blockRec bl).hash = bl.bd.hash := blockRec_hash bl
    rw [← hh]
    refine emitList_filter_first (blockRec bl) (post.map blockRec) (pre.map blockRec) [] ?_
      (by simp)
    intro p hp
    obtain ⟨b, hb, rfl⟩ := List.mem_map.mp hp
    rw [blockRec_hash, blockRec_hash]
    exact hfirst b hb
  · intro ls s hrun
    exact (runSteps_inv ls initState s initState_inv hrun).1

/-- Witness for C4 at a two-block stream repeating one hash. -/
theorem claim_C4_witness :
    ((∀ b ∈ [sampleBlock, sampleBlockDup], WFBlock b) ∧
      sampleBlockDup.bd.hash = sampleBlock.bd.hash) ∧
    ∃ cs, parseLog (renderBlocks ([] ++ sampleBlock :: [sampleBlockDup])) = some cs ∧
      cs.filter (fun r => r.hash == sampleBlock.bd.hash) = [blockRec sampleBlock] :=
  ⟨⟨by decide, by decide⟩,
   (claim_C4_dedup_first [] sampleBlock [sampleBlockDup] (by decide) (by decide)
     ⟨sampleBlockDup, by decide, by decide⟩).1⟩

/-- C5 counterexample: the numstat field `"-5"` is accepted by Python's
`int` and propagates a negative additions counter into the returned
record, refuting the claim's unconditional non-negativity over every
input stream. -/
theorem claim_C5_counterexample :
    ((parseLog [renderBoundary sampleBoundary, "-5\t0\tf".toList]).getD []).map
        (fun c => c.additions) = [-5] ∧
    (-5 : Int) < 0 := by
  constructor
  · decide
  · decide

/-- C5 (amended): for every successful parse, hashes are unique across the
returned sequence; additions/deletions are non-negative provided every
line's parsed tab fields are non-negative (Python `int` accepts negatives
such as `"-5"`, which enter the counters verbatim); and on well-formed
block streams every returned record is a block's record whose `files`
equals that block's numstat line count. -/
theorem claim_C5_record_invariants (ls : List (List Char)) (cs : List CommitRec)
    (h : parseLog ls = some cs) :
    ((cs.map (fun c => c.hash)).Nodup) ∧
    ((∀ l ∈ ls, 0 ≤ lineVal0 l ∧ 0 ≤ lineVal1 l) →
      ∀ c ∈ cs, 0 ≤ c.additions ∧ 0 ≤ c.deletions) ∧
    (∀ bs : List Block, (∀ bl ∈ bs, WFBlock bl) → ls = renderBlocks bs →
      ∀ r ∈ cs, ∃ bl ∈ bs, r = blockRec bl ∧ r.files = bl.stats.length) := by
  refine ⟨parseLog_hash_nodup ls cs h, fun hl => parseLog_nonneg ls cs hl h, ?_⟩
  intro bs hwf hls r hr
  subst hls
  rw [parse_renderBlocks bs hwf] at h
  obtain rfl : emitList [] (bs.map blockRec) = cs := Option.some_injective _ h
  have hmem := (mem_emitList _ _ _ hr).1
  obtain ⟨bl, hbl, rfl⟩ := List.mem_map.mp hmem
  exact ⟨bl, hbl, rfl, blockRec_files bl⟩

/-- Witness for C5 (amended) on a concrete one-block stream. -/
theorem claim_C5_witness :
    (parseLog (renderBlocks [sampleBlock]) = some [blockRec sampleBlock]) ∧
    (([blockRec sampleBlock].map (fun c => c.hash)).Nodup) :=
  ⟨by decide,
   (claim_C5_record_invariants (renderBlocks [sampleBlock]) [blockRec sampleBlock]
     (by decide)).1⟩

/-- C10: a non-boundary line containing at least three tab-separated fields
whose additions or deletions field fails `numVal` (neither a decimal
integer nor `'-'`) still increments the current record's file count by one
while leaving additions and deletions unchanged — the pair is updated
all-or-nothing, so a line whose additions field parses but whose deletions
field does not contributes to neither counter. -/
theorem claim_C10_malformed_numstat (s : PState) (c : CommitRec) (l : List Char)
    (hcur : s.cur = some c)
    (hb : bMarker.isPrefixOf l = false)
    (ht : l.contains '\t' = true)
    (h3 : 3 ≤ (splitTab l []).length)
    (hbad : numVal ((splitTab l []).getD 0 []) = none ∨
      numVal ((splitTab l []).getD 1 []) = none) :
    step s l = some { s with cur := some { c with files := c.files + 1 } } := by
  obtain ⟨fin, seen, cur, em⟩ := s
  simp only [PState.cur] at hcur
  subst hcur
  unfold step
  rw [hb]
  simp only [Bool.false_eq_true, if_false]
  rw [ht]
  simp only [if_true]
  rw [if_pos h3]
  rcases hbad with hbad | hbad
  · rw [hbad]
  · cases hv : numVal ((splitTab l []).getD 0 []) with
    | none => rfl
    | some a => rw [hbad]

/-- Witness for C10 at the line `"3\tx\tf"` (deletions field unparsable). -/
theorem claim_C10_witness :
    ((⟨[], [], some sampleCommit, false⟩ : PState).cur = some sampleCommit ∧
      numVal ((splitTab "3\tx\tf".toList []).getD 1 []) = none) ∧
    step ⟨[], [], some sampleCommit, false⟩ "3\tx\tf".toList =
      some { (⟨[], [], some sampleCommit, false⟩ : PState) with
        cur := some { sampleCommit with files := sampleCommit.files + 1 } } :=
  ⟨⟨rfl, by decide⟩,
   claim_C10_malformed_numstat ⟨[], [], some sampleCommit, false⟩ sampleCommit
     "3\tx\tf".toList rfl (by decide) (by decide) (by decide) (Or.inr (by decide))⟩

/-- Sample per-project results for the aggregation claim; `resB` carries an
empty-string error. -/
def resA : ProjResult := ⟨"p1", none, some 1, 2, none, none, none⟩

def resB : ProjResult := ⟨"p2", none, some 1, 5, none, none, some ""⟩

def resC : ProjResult := ⟨"p3", none, some 1, 3, none, none, none⟩

/-- C1 counterexample: a caught exception whose string form is empty (as for
`Exception()` in the bare `except` branch, where the code uses `str(e)`
verbatim) produces an empty `error` field, refuting the claim's "non-empty
string" requirement. -/
theorem claim_C1_counterexample :
    (analyze_commits_batch [sampleCommit] (.error ⟨.other, ""⟩)).error = some "" ∧
    ¬((analyze_commits_batch [sampleCommit] (.error ⟨.other, ""⟩)).error = none) := by
  constructor
  · rfl
  · intro h
    simp [analyze_commits_batch, errString] at h

/-- C1 (amended): on any failure of the capability invocation, for any
non-empty batch, the orchestrator returns (never raises) a result whose
`total_hours` equals exactly the spec's FallbackEstimator formula on the
batch's total changed-line count passed through the same
scale-by-4 / round-to-half-hour / cap normalization as the success path,
with empty `major_tasks`, and whose `error` field is set; the error string
is non-empty whenever the failure is a JSON-decode or schema-validation
failure, or the exception's own string form is non-empty (it is empty
exactly for a message-less exception reaching a `str(e)` branch). -/
theorem claim_C1_failure_fallback (commits : List CommitRec) (hne : commits ≠ [])
    (f : PyFailure) :
    (analyze_commits_batch commits (.error f)).total_hours =
      min (round_to_half_hour
        (specFallbackEstimate (totalLines commits) commits.length / 4)) 10 ∧
    (analyze_commits_batch commits (.error f)).major_tasks = [] ∧
    (analyze_commits_batch commits (.error f)).error = some (errString f) ∧
    ((f.kind = .jsonDecode ∨ f.kind = .validation ∨ f.msg ≠ "") → errString f ≠ "") := by
  have h0 : 0 < commits.length := List.length_pos.mpr hne
  have heq := specFallback_agrees (totalLines commits) commits.length h0
  have hmain : (analyze_commits_batch commits (.error f)).total_hours =
      fallbackHours (totalLines commits) := by
    unfold analyze_commits_batch
    rw [if_neg hne]
  refine ⟨by rw [hmain, heq], ?_, ?_, ?_⟩
  · unfold analyze_commits_batch
    rw [if_neg hne]
  · unfold analyze_commits_batch
    rw [if_neg hne]
  · intro hk
    obtain ⟨k, m⟩ := f
    cases k with
    | jsonDecode =>
      exact append_ne_empty_left "JSON parsing error: " m (by decide)
    | validation =>
      exact append_ne_empty_left "Response validation error: " m (by decide)
    | googleAPI =>
      rcases hk with hk | hk | hk
      · exact absurd hk (by simp)
      · exact absurd hk (by simp)
      · exact hk
    | other =>
      rcases hk with hk | hk | hk
      · exact absurd hk (by simp)
      · exact absurd hk (by simp)
      · exact hk

/-- Witness for C1 (amended) at a one-commit batch and a JSON failure. -/
theorem claim_C1_witness :
    ([sampleCommit] ≠ ([] : List CommitRec)) ∧
    (analyze_commits_batch [sampleCommit] (.error ⟨.jsonDecode, "boom"⟩)).total_hours =
      min (round_to_half_hour
        (specFallbackEstimate (totalLines [sampleCommit]) [sampleCommit].length / 4)) 10 :=
  ⟨by decide,
   (claim_C1_failure_fallback [sampleCommit] (by decide) ⟨.jsonDecode, "boom"⟩).1⟩

/-- C6: the fallback estimate equals the spec formula
`clamp(base_hours + total_lines / lines_per_hour, max_hours)` (base only
for a positive commit count) followed by the orchestrator's
scale/round/cap normalization — extensionally identical to the source's
inlined `min(round_to_half_hour((0.5 + L/100)/4), 10)`; the raw clamp
stays under `FALLBACK_MAX_HOURS`, the normalized result never exceeds the
10-hour cap, it is monotone non-decreasing in the changed-line count,
`estimate(0, 0) = 0`, and an empty batch short-circuits to a zero result
deterministically. -/
theorem claim_C6_fallback_formula :
    (∀ (L : ℤ) (n : ℕ), 0 < n →
      min (round_to_half_hour (specFallbackEstimate L n / 4)) 10 = fallbackHours L) ∧
    (∀ (L : ℤ) (n : ℕ), specFallbackEstimate L n ≤ FALLBACK_MAX_HOURS) ∧
    (∀ L : ℤ, fallbackHours L ≤ 10) ∧
    (∀ L1 L2 : ℤ, L1 ≤ L2 → fallbackHours L1 ≤ fallbackHours L2) ∧
    specFallbackEstimate 0 0 = 0 ∧
    (∀ resp, analyze_commits_batch [] resp =
      ⟨0, "No commits to analyze", [], none⟩) := by
  refine ⟨fun L n hn => specFallback_agrees L n hn,
    fun L n => min_le_right _ _,
    fallbackHours_le_ten,
    fallbackHours_mono,
    ?_, fun resp => rfl⟩
  unfold specFallbackEstimate FALLBACK_MAX_HOURS FALLBACK_LINES_PER_HOUR
  norm_num

/-- Witness for C6 at 250 changed lines across 2 commits. -/
theorem claim_C6_witness :
    (0 < 2) ∧
    min (round_to_half_hour (specFallbackEstimate 250 2 / 4)) 10 = fallbackHours 250 :=
  ⟨by decide, claim_C6_fallback_formula.1 250 2 (by decide)⟩

/-- C7 counterexample: a successful capability response reporting
`total_hours = -8` normalizes to `-2`, which the (uncapped-below) code
returns, refuting the claim's `0 ≤ total_hours`. -/
theorem claim_C7_counterexample :
    (analyze_commits_batch [sampleCommit] (.ok ⟨-8, "s", []⟩)).total_hours = -2 ∧
    ¬(0 ≤ (analyze_commits_batch [sampleCommit] (.ok ⟨-8, "s", []⟩)).total_hours) := by
  have h : (analyze_commits_batch [sampleCommit] (.ok ⟨-8, "s", []⟩)).total_hours =
      min (round_to_half_hour ((-8 : ℚ) / 4)) 10 := by
    unfold analyze_commits_batch
    rw [if_neg (by decide)]
  have h2 : round_to_half_hour ((-8 : ℚ) / 4) = -2 := by
    rw [round_to_half_hour_eq_int _ (-4) (by norm_num)]
    norm_num
  have h3 : (analyze_commits_batch [sampleCommit] (.ok ⟨-8, "s", []⟩)).total_hours = -2 := by
    rw [h, h2, min_eq_left (by norm_num)]
  refine ⟨h3, ?_⟩
  rw [h3]
  norm_num

/-- C7 (amended): for every successful capability response on a non-empty
batch, the normalized total is at most the 10-hour cap and an exact
multiple of the half-hour granularity, the cap applies only to the total
while per-task hours are independently scaled and rounded (not capped, not
re-summed), no error is set, and the total is additionally non-negative
whenever the response's reported total is non-negative (the code has no
lower clamp, so a negative response total survives). -/
theorem claim_C7_normalization (commits : List CommitRec) (hne : commits ≠ [])
    (a : CommitAnalysis) :
    (analyze_commits_batch commits (.ok a)).total_hours ≤ 10 ∧
    (∃ k : ℤ, (analyze_commits_batch commits (.ok a)).total_hours = (k : ℚ) / 2) ∧
    (0 ≤ a.total_hours → 0 ≤ (analyze_commits_batch commits (.ok a)).total_hours) ∧
    (analyze_commits_batch commits (.ok a)).major_tasks =
      a.major_tasks.map (fun t => (t.1, round_to_half_hour (t.2 / 4))) ∧
    (analyze_commits_batch commits (.ok a)).error = none := by
  unfold analyze_commits_batch
  rw [if_neg hne]
  refine ⟨min_le_right _ _, min_rhh_half_multiple _, ?_, rfl, rfl⟩
  intro h0
  exact le_min (round_to_half_hour_nonneg _ (by linarith)) (by norm_num)

/-- Witness for C7 (amended) at a concrete valid response. -/
theorem claim_C7_witness :
    ([sampleCommit] ≠ ([] : List CommitRec)) ∧
    (analyze_commits_batch [sampleCommit] (.ok ⟨8, "w", [("t", 2)]⟩)).total_hours ≤ 10 :=
  ⟨by decide,
   (claim_C7_normalization [sampleCommit] (by decide) ⟨8, "w", [("t", 2)]⟩).1⟩

/-- C8 counterexample: with three results of which the second carries the
(set, but empty-string) error produced by a message-less exception, the
code's grand total is 10 — it includes the error-bearing result's 5 hours,
because `if not result.get('error')` treats `''` as no error — while the
sum over results with no error set is 5. -/
theorem claim_C8_counterexample :
    (dayRunner [resA, resB, resC]).2 = 10 ∧
    (([resA, resB, resC].filter (fun r => r.error = none)).map
      (fun r => r.total_hours)).sum = 5 ∧
    (dayRunner [resA, resB, resC]).2 ≠
      (([resA, resB, resC].filter (fun r => r.error = none)).map
        (fun r => r.total_hours)).sum := by
  have he : ("" : String).isEmpty = true := rfl
  have h1 : (dayRunner [resA, resB, resC]).2 = 10 := by
    simp [dayRunner, resA, resB, resC, pyTruthy, he]
    norm_num
  have h2 : (([resA, resB, resC].filter (fun r => r.error = none)).map
      (fun r => r.total_hours)).sum = 5 := by
    simp [resA, resB, resC]
    norm_num
  refine ⟨h1, h2, ?_⟩
  rw [h1, h2]
  norm_num

/-- C8 (amended): the day runner's listing preserves the input order with
every result at its original position, and the grand total sums
`total_hours` over exactly the results whose `error` is Python-falsy
(unset or the empty string); results with a non-empty error are excluded
from the total but still listed. -/
theorem claim_C8_aggregation (rs : List ProjResult) :
    (dayRunner rs).1 = rs ∧
    (dayRunner rs).2 =
      ((rs.filter (fun r => pyTruthy r.error = false)).map
        (fun r => r.total_hours)).sum := by
  rw [dayRunner_spec]
  exact ⟨rfl, rfl⟩

/-- C9: project analysis validates in order — missing path yields a
zero-hour result whose error names the missing path; a path without a
`.git` directory yields a zero-hour "not a git repository" error; with
validation passed and an author email configured, zero commits yield a
zero-hour, error-free result whose summary names the author email, and a
non-empty commit list yields the orchestrator's result merged with the
project name, path and commit count. -/
theorem claim_C9_project_validation (name path : String) (pathExists hasGitDir : Bool)
    (author_email : Option String) (commits : List CommitRec) (analysis : BatchResult) :
    (pathExists = false →
      analyze_project name path pathExists hasGitDir author_email commits analysis =
        ⟨name, none, none, 0, none, none, some ("Path does not exist: " ++ path)⟩) ∧
    (pathExists = true → hasGitDir = false →
      analyze_project name path pathExists hasGitDir author_email commits analysis =
        ⟨name, none, none, 0, none, none, some ("Not a git repository: " ++ path)⟩) ∧
    (∀ e : String, pathExists = true → hasGitDir = true → author_email = some e →
      e ≠ "" → commits = [] →
      analyze_project name path pathExists hasGitDir author_email commits analysis =
        ⟨name, none, some 0, 0, some ("No commits by " ++ e ++ " on this day"),
          some [], none⟩) ∧
    (∀ e : String, pathExists = true → hasGitDir = true → author_email = some e →
      e ≠ "" → commits ≠ [] →
      analyze_project name path pathExists hasGitDir author_email commits analysis =
        ⟨name, some path, some commits.length, analysis.total_hours,
          some analysis.summary, some analysis.major_tasks, analysis.error⟩) := by
  refine ⟨?_, ?_, ?_, ?_⟩
  · intro h
    subst h
    rfl
  · intro h1 h2
    subst h1
    subst h2
    rfl
  · intro e h1 h2 h3 h4 h5
    subst h1
    subst h2
    subst h3
    subst h5
    simp [analyze_project, pyTruthy_some e h4]
  · intro e h1 h2 h3 h4 h5
    subst h1
    subst h2
    subst h3
    simp [analyze_project, pyTruthy_some e h4, h5]

/-- Witness for C9 at a concrete project with one commit. -/
theorem claim_C9_witness :
    ((some "al@x.co" : Option String) = some "al@x.co" ∧ "al@x.co" ≠ "" ∧
      [sampleCommit] ≠ ([] : List CommitRec)) ∧
    analyze_project "p" "/x" true true (some "al@x.co") [sampleCommit]
        ⟨2, "sum", [], none⟩ =
      ⟨"p", some "/x", some 1, 2, some "sum", some [], none⟩ :=
  ⟨⟨rfl, by decide, by decide⟩,
   (claim_C9_project_validation "p" "/x" true true (some "al@x.co") [sampleCommit]
     ⟨2, "sum", [], none⟩).2.2.2 "al@x.co" rfl rfl rfl (by decide) (by decide)⟩

end Timekeep
